import Mathlib

/-!
Shallow embedding of `torch/profiler/_utils.py` (queue-depth and idle-time
analysis engine) and proofs about it.

Conventions of the embedding:
* Python `int` is `Int` (arbitrary precision; durations may be negative).
* The metrics dictionary `self.metrics : Dict[EventKey, EventMetrics]`
  (keys hash/compare on `event.id`) is an association list
  `List (HostEvent × EventMetrics)` looked up by `id`; insertion order is
  preserved, and the duplicate-id `assert` of `compute_self_time` is
  modelled by returning `none`.
* The iterative DFS of `compute_self_time` uses a `deque` popped and
  appended on the right; we represent the deque reversed, with the right
  end at the head of the list.
-/

namespace TorchProfiler

/-- `EventMetrics` dataclass of `_utils.py` (all fields default 0). -/
structure EventMetrics where
  duration_time_ns : Int := 0
  self_time_ns : Int := 0
  idle_time_ns : Int := 0
  queue_depth : Int := 0
deriving DecidableEq, Inhabited, Repr

/-- `Interval` dataclass: `{start, end, queue_depth = 0}`. -/
structure Interval where
  start : Int
  «end» : Int
  queue_depth : Int := 0
deriving DecidableEq, Inhabited, Repr

/-- A host-side profiler event (`_ProfilerEvent`): stable id, start/end
timestamps in ns, a duration attribute, and nested children. -/
inductive HostEvent where
  | mk (id : Int) (start_time_ns : Int) (end_time_ns : Int)
       (duration_time_ns : Int) (children : List HostEvent)

mutual

/-- Boolean equality on host events (structural). -/
def HostEvent.beq : HostEvent → HostEvent → Bool
  | .mk i s e d cs, .mk i' s' e' d' cs' =>
    i == i' && s == s' && e == e' && d == d' && HostEvent.beqList cs cs'

/-- Boolean equality on lists of host events. -/
def HostEvent.beqList : List HostEvent → List HostEvent → Bool
  | [], [] => true
  | a :: as, b :: bs => HostEvent.beq a b && HostEvent.beqList as bs
  | _, _ => false

end

mutual

theorem HostEvent.beq_iff : ∀ a b : HostEvent, HostEvent.beq a b = true ↔ a = b
  | .mk i s e d cs, .mk i' s' e' d' cs' => by
    simp [HostEvent.beq, HostEvent.beqList_iff cs cs', and_assoc]

theorem HostEvent.beqList_iff :
    ∀ as bs : List HostEvent, HostEvent.beqList as bs = true ↔ as = bs
  | [], [] => by simp [HostEvent.beqList]
  | [], _ :: _ => by simp [HostEvent.beqList]
  | _ :: _, [] => by simp [HostEvent.beqList]
  | a :: as, b :: bs => by
    simp [HostEvent.beqList, HostEvent.beq_iff a b, HostEvent.beqList_iff as bs]

end

instance : DecidableEq HostEvent := fun a b =>
  decidable_of_iff _ (HostEvent.beq_iff a b)

def HostEvent.id : HostEvent → Int
  | .mk i _ _ _ _ => i

def HostEvent.start_time_ns : HostEvent → Int
  | .mk _ s _ _ _ => s

def HostEvent.end_time_ns : HostEvent → Int
  | .mk _ _ e _ _ => e

def HostEvent.duration_time_ns : HostEvent → Int
  | .mk _ _ _ d _ => d

def HostEvent.children : HostEvent → List HostEvent
  | .mk _ _ _ _ cs => cs

instance : Inhabited HostEvent := ⟨.mk 0 0 0 0 []⟩

mutual

/-- Number of events in one host-event tree. -/
def treeSize : HostEvent → Nat
  | .mk _ _ _ _ cs => 1 + forestSize cs

/-- Number of events in a forest of host-event trees. -/
def forestSize : List HostEvent → Nat
  | [] => 0
  | c :: cs => treeSize c + forestSize cs

end

theorem forestSize_append (l₁ l₂ : List HostEvent) :
    forestSize (l₁ ++ l₂) = forestSize l₁ + forestSize l₂ := by
  induction l₁ with
  | nil => simp [forestSize]
  | cons a l ih => simp [forestSize, ih]; omega

theorem forestSize_reverse (l : List HostEvent) :
    forestSize l.reverse = forestSize l := by
  induction l with
  | nil => rfl
  | cons a l ih =>
    simp [forestSize, List.reverse_cons, forestSize_append, ih]
    omega

/-- Sum of `duration_time_ns` over a list of (direct-children) events. -/
def sumChildDur (cs : List HostEvent) : Int :=
  (cs.map HostEvent.duration_time_ns).sum

/-- `EventKey(curr_event) in self.metrics`: dictionary key membership,
keys compare on `event.id`. -/
def containsId (m : List (HostEvent × EventMetrics)) (i : Int) : Bool :=
  m.any (fun p => p.1.id == i)

/-- Dictionary lookup by event id (first matching entry). -/
def lookupById (m : List (HostEvent × EventMetrics)) (i : Int) :
    Option EventMetrics :=
  (m.find? (fun p => p.1.id == i)).map (·.2)

/-- The metrics record stored for `curr_event` by `compute_self_time`:
`EventMetrics(self_time_ns = duration - sum(child durations))` followed by
`metrics[...].duration_time_ns = curr_event.duration_time_ns`. -/
def selfTimeRecord (e : HostEvent) : EventMetrics :=
  { self_time_ns := e.duration_time_ns - sumChildDur e.children,
    duration_time_ns := e.duration_time_ns }

/-- The `while stack:` loop of `compute_self_time`.  The deque is held
reversed (head = right end): `stack.pop()` is `head`, and appending all
children on the right is `children.reverse ++ rest`.  The duplicate-id
`assert` is the `none` branch. -/
def selfTimeLoop :
    List HostEvent → List (HostEvent × EventMetrics) →
    Option (List (HostEvent × EventMetrics))
  | [], acc => some acc
  | e :: rest, acc =>
    if containsId acc e.id then none
    else selfTimeLoop (e.children.reverse ++ rest) (acc ++ [(e, selfTimeRecord e)])
termination_by stack _ => forestSize stack
decreasing_by
  cases e with
  | mk i s en d cs =>
    simp only [forestSize_append, forestSize_reverse, HostEvent.children,
      forestSize, treeSize]
    omega

/-- `BasicEvaluation.compute_self_time`: the stack starts as
`deque(experimental_event_tree())`, i.e. the roots left to right, whose
reversed representation is `roots.reverse`. -/
def compute_self_time (roots : List HostEvent) :
    Option (List (HostEvent × EventMetrics)) :=
  selfTimeLoop roots.reverse []

/-- `t` occurs in the tree rooted at `r` (as `r` itself or a descendant). -/
inductive MemTree : HostEvent → HostEvent → Prop
  | here (e : HostEvent) : MemTree e e
  | via_child {t c r : HostEvent} :
      c ∈ r.children → MemTree t c → MemTree t r

/-- `t` occurs in the forest `l` (recursively, including descendants). -/
def MemForest (t : HostEvent) (l : List HostEvent) : Prop :=
  ∃ r ∈ l, MemTree t r

/-- The key order of `sorted(intervals, key=lambda x: x.start)`. -/
def startLE (a b : Interval) : Prop := a.start ≤ b.start

instance : DecidableRel startLE := fun a b =>
  inferInstanceAs (Decidable (a.start ≤ b.start))

instance : IsTotal Interval startLE := ⟨fun a b => le_total a.start b.start⟩

instance : IsTrans Interval startLE := ⟨fun _ _ _ => le_trans⟩

/-- `sorted(intervals, key=lambda x: x.start)`: Python's `sorted` is a
stable sort by the key, modelled by a stable sort on the start field. -/
def sortByStart (l : List Interval) : List Interval :=
  l.insertionSort startLE

/-- The in-place clipping pass of `intervals_overlap`: for each position
`i`, if `interval.end > intervals[i+1].start` then
`interval.end = intervals[i+1].start` (the next interval's `start` is
never modified, so clipping positions left to right is order-free). -/
def clipPass : List Interval → List Interval
  | [] => []
  | [a] => [a]
  | a :: b :: rest =>
    (if a.«end» > b.start then { a with «end» := b.start } else a) ::
      clipPass (b :: rest)

/-- One loop iteration's contribution:
`overlap_start = max(event.start, interval.start)`,
`overlap_end = min(event.end, interval.end)`, added when positive. -/
def overlapContrib (s e : Int) (i : Interval) : Int :=
  if max s i.start < min e i.«end» then min e i.«end» - max s i.start else 0

/-- Total overlap of the event span `[s, e)` with a list of intervals. -/
def overlapSum (s e : Int) (l : List Interval) : Int :=
  (l.map (overlapContrib s e)).sum

/-- `EventKey.intervals_overlap`: return value of one call — sort a copy
of the argument by `start`, clip overlapping consecutive intervals, and
sum the clipped intervals' overlap with the event's span. -/
def HostEvent.intervals_overlap (ev : HostEvent) (intervals : List Interval) :
    Int :=
  overlapSum ev.start_time_ns ev.end_time_ns (clipPass (sortByStart intervals))

/-- Contents of the interval list after one `intervals_overlap` call,
viewed in sorted order: `sorted(...)` copies the list but shares the
`Interval` objects, and the loop assigns `interval.end` in place, so the
caller's objects are the clipped ones. -/
def intervals_overlap_post (intervals : List Interval) : List Interval :=
  clipPass (sortByStart intervals)

/-- The `for data_point in self.queue_depth_list:` scan of
`compute_idle_time`: a transition to depth 0 opens an idle interval at
`data_point.end`; the next transition to depth > 0 closes it at
`data_point.start`.  State: the `idle` flag and `idle_start`. -/
def scanIdleIntervals : List Interval → Bool → Int → List Interval
  | [], _, _ => []
  | d :: rest, idle, idle_start =>
    if d.queue_depth = 0 ∧ idle = false then
      scanIdleIntervals rest true d.«end»
    else if 0 < d.queue_depth ∧ idle = true then
      Interval.mk idle_start d.start 0 :: scanIdleIntervals rest false idle_start
    else
      scanIdleIntervals rest idle idle_start

/-- The idle-interval list built by `compute_idle_time`: two boundary
intervals when `self.queue_depth_list and self.events` are both nonempty
(Python truthiness), followed by the scan's intervals.  `events` is
`self.events`: the metric keys sorted by `start_time_ns`. -/
def idleIntervals (events : List HostEvent)
    (queue_depth_list : List Interval) : List Interval :=
  (if queue_depth_list.isEmpty || events.isEmpty then []
   else [Interval.mk (events.headD default).start_time_ns
           (queue_depth_list.headD default).start 0,
         Interval.mk (queue_depth_list.getLastD default).«end»
           (events.getLastD default).end_time_ns 0])
  ++ scanIdleIntervals queue_depth_list false 0

/-- `BasicEvaluation.compute_idle_time`: set every metric record's
`idle_time_ns` to the event's overlap with the idle intervals. -/
def compute_idle_time (events : List HostEvent)
    (queue_depth_list : List Interval)
    (metrics : List (HostEvent × EventMetrics)) :
    List (HostEvent × EventMetrics) :=
  let idle_intervals := idleIntervals events queue_depth_list
  metrics.map (fun p =>
    (p.1, { p.2 with idle_time_ns := p.1.intervals_overlap idle_intervals }))

/-- A device-side Kineto event: name, start/duration in µs, correlation
id.  (The launch/kernel classification predicates are caller-supplied
name/device tests and are not needed by the claims.) -/
structure KEvent where
  name : String
  start_us : Int
  duration_us : Int
  linked_correlation_id : Int
deriving DecidableEq, Inhabited

/-- The `for i in range(start, end)` loop body of `index_of_first_match`,
iterating over the (already materialised) index range. -/
def iofmGo (seq : List α) (pred : α → Bool) : List Nat → Option Nat
  | [] => none
  | i :: is =>
    match seq[i]? with
    | some x => if pred x then some i else iofmGo seq pred is
    | none => none

/-- `index_of_first_match(seq, predicate, start, end)`: first index in
`range(start, end)` whose element satisfies the predicate; `end = None`
(and any `end >= len(seq)`) means `len(seq)`. -/
def index_of_first_match (seq : List α) (pred : α → Bool)
    (start : Nat) (endIdx : Option Nat) : Option Nat :=
  let e := match endIdx with
    | none => seq.length
    | some e => if seq.length ≤ e then seq.length else e
  iofmGo seq pred (List.range' start (e - start))

/-- The correlation-mapping loop of `compute_queue_depth`: for each
launch event (in start order), search the sorted kernel list from
`last_mapped_kernel` (the index of the previously matched kernel,
inclusive) for the first kernel with the launch's correlation id; the
cursor advances to the matched index, or stays on a miss. -/
def buildKernelMappingGo (cuda_kernel_events : List KEvent) :
    List KEvent → Nat → List (Option Nat)
  | [], _ => []
  | l :: rest, last_mapped_kernel =>
    let index := index_of_first_match cuda_kernel_events
      (fun x => x.linked_correlation_id == l.linked_correlation_id)
      last_mapped_kernel none
    index :: buildKernelMappingGo cuda_kernel_events rest
      (match index with | some i => i | none => last_mapped_kernel)

/-- `kernel_mapping` of `compute_queue_depth`, as the list of matched
kernel indices per launch event (both lists already sorted by start). -/
def buildKernelMapping (cuda_launch_events cuda_kernel_events : List KEvent) :
    List (Option Nat) :=
  buildKernelMappingGo cuda_kernel_events cuda_launch_events 0

/-- `argmax(seq, start=start, end=end)` of `_utils.py`: index (in the
original list) of the first maximum of `seq[start:end]`, `None` when the
slice is empty. -/
def argmax (seq : List Int) (start «end» : Nat) : Option Nat :=
  match (seq.drop start).take («end» - start) with
  | [] => none
  | x :: xs => some ((x :: xs).indexOf (xs.foldl max x) + start)

/-- The inner `for j in range(i + 1, len(qd_values))` loop of the
drain-pattern scan in `rank_events`: find the first `j` with
`qd_values[j] <= 1` whose interior peak exceeds `qd_values[i]` by more
than 3, and emit `Interval(queue_depth_list[peak].start,
queue_depth_list[i].start)`.  (All indices are in bounds at every call
site; `getD` defaults are never hit.) -/
def innerScanGo (qd_values : List Int) (queue_depth_list : List Interval)
    (i : Nat) : List Nat → Option Interval
  | [] => none
  | j :: js =>
    if qd_values.getD j 0 ≤ 1 then
      match argmax qd_values (i + 1) j with
      | none => innerScanGo qd_values queue_depth_list i js
      | some peak_idx =>
        if qd_values.getD peak_idx 0 - qd_values.getD i 0 > 3 then
          some (Interval.mk (queue_depth_list.getD peak_idx default).start
            (queue_depth_list.getD i default).start 0)
        else innerScanGo qd_values queue_depth_list i js
    else innerScanGo qd_values queue_depth_list i js

/-- The inner loop, with `j` running over `range(i + 1, len(qd_values))`. -/
def innerScan (qd_values : List Int) (queue_depth_list : List Interval)
    (i : Nat) : Option Interval :=
  innerScanGo qd_values queue_depth_list i
    (List.range' (i + 1) (qd_values.length - (i + 1)))

/-- The `decrease_interval` list of `rank_events`, over the already
reversed queue-depth list.  The outer loop variable `i` runs over
`range(len(qd_values) - 1)` unconditionally: the Python statement
`i = j` before `break` does not change a `for` loop's iteration
variable, so consumed windows are *not* skipped. -/
def decreaseIntervals (queue_depth_list : List Interval) : List Interval :=
  let qd_values := queue_depth_list.map (·.queue_depth)
  (List.range (qd_values.length - 1)).filterMap
    (fun i => if qd_values.getD i 0 ≤ 1 then
        innerScan qd_values queue_depth_list i
      else none)

/-- Python `l[:n]`: for `n >= 0` the first `n` elements, for `n < 0` all
but the last `|n|` elements. -/
def pySliceTo (l : List α) (n : Int) : List α :=
  if n < 0 then l.take (l.length + n).toNat else l.take n.toNat

/-- `BasicEvaluation.rank_events`.  `metric_keys` is
`self.metrics.keys()`; `hsort` abstracts lines 243–263: the reordering
of the surviving events descending by `z(idle_time) + z(self_time)`,
computed there with float32 tensors (floating point, so only the induced
permutation is modelled; it does not affect which events survive or the
length of the result). -/
def rank_events (self_queue_depth_list : List Interval)
    (metric_keys : List HostEvent)
    (hsort : List HostEvent → List HostEvent) (length : Int) :
    List HostEvent :=
  let queue_depth_list := self_queue_depth_list.reverse
  let decrease_interval := decreaseIntervals queue_depth_list
  let event_list := metric_keys.filter
    (fun event => event.intervals_overlap decrease_interval != 0)
  if event_list.isEmpty then event_list
  else pySliceTo (hsort event_list) length

/-- `BasicEvaluation.get_optimizable_events` (report text rendering is
out of scope): the Bool is whether the \"No events to optimize\" branch
was taken (it prints that indicator and returns `[]`); otherwise the
ranked list is returned. -/
def get_optimizable_events (self_queue_depth_list : List Interval)
    (metric_keys : List HostEvent)
    (hsort : List HostEvent → List HostEvent) (length : Int) :
    Bool × List HostEvent :=
  let event_list := rank_events self_queue_depth_list metric_keys hsort length
  if event_list.isEmpty then (true, [])
  else (false, event_list)

theorem MemTree.inv {t r : HostEvent} (h : MemTree t r) :
    t = r ∨ ∃ c ∈ r.children, MemTree t c := by
  cases h with
  | here => exact Or.inl rfl
  | via_child hm hmt => exact Or.inr ⟨_, hm, hmt⟩

theorem MemTree.trans {a b c : HostEvent} (h1 : MemTree a b) (h2 : MemTree b c) :
    MemTree a c := by
  induction h2 with
  | here => exact h1
  | via_child hmem _ ih => exact .via_child hmem ih

theorem containsId_append (m₁ m₂ : List (HostEvent × EventMetrics)) (i : Int) :
    containsId (m₁ ++ m₂) i = (containsId m₁ i || containsId m₂ i) := by
  simp [containsId, List.any_append]

theorem lookupById_append_left {m₁ : List (HostEvent × EventMetrics)}
    {i : Int} (h : containsId m₁ i = true) (m₂ : List (HostEvent × EventMetrics)) :
    lookupById (m₁ ++ m₂) i = lookupById m₁ i := by
  simp only [containsId, List.any_eq_true] at h
  obtain ⟨x, hx, hpx⟩ := h
  have : (m₁.find? (fun p => p.1.id == i)).isSome := by
    rw [List.find?_isSome]
    exact ⟨x, hx, hpx⟩
  simp only [lookupById, List.find?_append]
  obtain ⟨y, hy⟩ := Option.isSome_iff_exists.mp this
  simp [hy]

theorem lookupById_append_right {m₁ : List (HostEvent × EventMetrics)}
    {i : Int} (h : containsId m₁ i = false) (m₂ : List (HostEvent × EventMetrics)) :
    lookupById (m₁ ++ m₂) i = lookupById m₂ i := by
  have : m₁.find? (fun p => p.1.id == i) = none := by
    rw [List.find?_eq_none]
    intro x hx
    simp only [containsId] at h
    have := List.any_eq_false.mp h x hx
    simpa using this
  simp [lookupById, List.find?_append, this]

/-- Entries already present when the DFS loop starts are left untouched:
the loop only ever inserts ids that are not yet in the map. -/
theorem selfTimeLoop_preserves (stack : List HostEvent)
    (acc : List (HostEvent × EventMetrics)) :
    ∀ m, selfTimeLoop stack acc = some m →
      ∀ i, containsId acc i = true → lookupById m i = lookupById acc i := by
  induction stack, acc using selfTimeLoop.induct with
  | case1 acc =>
    intro m h i _
    simp only [selfTimeLoop, Option.some.injEq] at h
    rw [h]
  | case2 e rest acc hc =>
    intro m h i _
    simp [selfTimeLoop, hc] at h
  | case3 e rest acc hc ih =>
    intro m h i hci
    simp only [selfTimeLoop, hc, if_false, Bool.false_eq_true, ite_false] at h
    have hci' : containsId (acc ++ [(e, selfTimeRecord e)]) i = true := by
      rw [containsId_append, hci, Bool.true_or]
    rw [ih m h i hci', lookupById_append_left hci]

/-- Every event of the forest still on the stack ends up with its
self-time record in the final map. -/
theorem selfTimeLoop_covers (stack : List HostEvent)
    (acc : List (HostEvent × EventMetrics)) :
    ∀ m, selfTimeLoop stack acc = some m →
      ∀ t, MemForest t stack → lookupById m t.id = some (selfTimeRecord t) := by
  induction stack, acc using selfTimeLoop.induct with
  | case1 acc =>
    intro m _ t ht
    obtain ⟨r, hr, _⟩ := ht
    simp at hr
  | case2 e rest acc hc =>
    intro m h t _
    simp [selfTimeLoop, hc] at h
  | case3 e rest acc hc ih =>
    intro m h t ht
    simp only [selfTimeLoop, hc, if_false, Bool.false_eq_true, ite_false] at h
    obtain ⟨r, hr, htr⟩ := ht
    rcases List.mem_cons.mp hr with heq | hrrest
    · rcases MemTree.inv htr with heq2 | ⟨c, hcmem, hmt⟩
      · rw [heq2, heq]
        have hcontains : containsId (acc ++ [(e, selfTimeRecord e)]) e.id = true := by
          rw [containsId_append]
          simp [containsId]
        rw [selfTimeLoop_preserves _ _ m h e.id hcontains]
        have hfalse : containsId acc e.id = false := by
          cases hb : containsId acc e.id with
          | false => rfl
          | true => exact absurd hb hc
        rw [lookupById_append_right hfalse]
        simp [lookupById]
      · refine ih m h t ⟨c, ?_, hmt⟩
        rw [List.mem_append, List.mem_reverse]
        exact Or.inl (heq ▸ hcmem)
    · refine ih m h t ⟨r, ?_, htr⟩
      rw [List.mem_append]
      exact Or.inr hrrest

/-- **C1.** For every host event in the input forest (recursively,
including all descendants), `compute_self_time` stores a metrics record
with `self_time_ns` equal to the event's duration minus the sum of its
direct children's durations and `duration_time_ns` equal to the event's
duration; moreover every direct child's stored `duration_time_ns` is the
child's duration, so `self_time_ns + sum(child.duration_time_ns)
= duration_time_ns`. -/
theorem compute_self_time_correct (roots : List HostEvent)
    (m : List (HostEvent × EventMetrics)) (hm : compute_self_time roots = some m)
    (t : HostEvent) (ht : MemForest t roots) :
    ∃ rec, lookupById m t.id = some rec ∧
      rec.self_time_ns = t.duration_time_ns - sumChildDur t.children ∧
      rec.duration_time_ns = t.duration_time_ns ∧
      rec.self_time_ns + sumChildDur t.children = rec.duration_time_ns ∧
      ∀ c ∈ t.children, ∃ recc, lookupById m c.id = some recc ∧
        recc.duration_time_ns = c.duration_time_ns := by
  obtain ⟨r, hr, htr⟩ := ht
  have hrev : MemForest t roots.reverse := ⟨r, List.mem_reverse.mpr hr, htr⟩
  have h1 := selfTimeLoop_covers _ _ m hm t hrev
  refine ⟨selfTimeRecord t, h1, rfl, rfl, ?_, ?_⟩
  · simp [selfTimeRecord]
  · intro c hcmem
    have hct : MemTree c t := .via_child hcmem (.here c)
    have hcrev : MemForest c roots.reverse :=
      ⟨r, List.mem_reverse.mpr hr, hct.trans htr⟩
    exact ⟨selfTimeRecord c, selfTimeLoop_covers _ _ m hm c hcrev, rfl⟩

/-- Witness for C1 on a two-node tree (root id 1, duration 10; one child
id 2, duration 4): the stored record is `{duration 10, self 6}`. -/
theorem compute_self_time_correct_witness :
    compute_self_time [HostEvent.mk 1 0 10 10 [HostEvent.mk 2 2 6 4 []]] =
      some [(HostEvent.mk 1 0 10 10 [HostEvent.mk 2 2 6 4 []], ⟨10, 6, 0, 0⟩),
            (HostEvent.mk 2 2 6 4 [], ⟨4, 4, 0, 0⟩)] ∧
    MemForest (HostEvent.mk 1 0 10 10 [HostEvent.mk 2 2 6 4 []])
      [HostEvent.mk 1 0 10 10 [HostEvent.mk 2 2 6 4 []]] ∧
    (∃ rec, lookupById
        [(HostEvent.mk 1 0 10 10 [HostEvent.mk 2 2 6 4 []], ⟨10, 6, 0, 0⟩),
         (HostEvent.mk 2 2 6 4 [], ⟨4, 4, 0, 0⟩)]
        (HostEvent.mk 1 0 10 10 [HostEvent.mk 2 2 6 4 []]).id = some rec ∧
      rec.self_time_ns =
        (HostEvent.mk 1 0 10 10 [HostEvent.mk 2 2 6 4 []]).duration_time_ns -
          sumChildDur (HostEvent.mk 1 0 10 10 [HostEvent.mk 2 2 6 4 []]).children ∧
      rec.duration_time_ns =
        (HostEvent.mk 1 0 10 10 [HostEvent.mk 2 2 6 4 []]).duration_time_ns ∧
      rec.self_time_ns +
          sumChildDur (HostEvent.mk 1 0 10 10 [HostEvent.mk 2 2 6 4 []]).children =
        rec.duration_time_ns ∧
      ∀ c ∈ (HostEvent.mk 1 0 10 10 [HostEvent.mk 2 2 6 4 []]).children,
        ∃ recc, lookupById
            [(HostEvent.mk 1 0 10 10 [HostEvent.mk 2 2 6 4 []], ⟨10, 6, 0, 0⟩),
             (HostEvent.mk 2 2 6 4 [], ⟨4, 4, 0, 0⟩)] c.id = some recc ∧
          recc.duration_time_ns = c.duration_time_ns) :=
  ⟨by simp [compute_self_time, selfTimeLoop, containsId, selfTimeRecord,
      sumChildDur, HostEvent.children, HostEvent.id, HostEvent.duration_time_ns],
   ⟨_, List.mem_singleton.mpr rfl, .here _⟩,
   compute_self_time_correct _ _
     (by simp [compute_self_time, selfTimeLoop, containsId, selfTimeRecord,
        sumChildDur, HostEvent.children, HostEvent.id, HostEvent.duration_time_ns])
     _ ⟨_, List.mem_singleton.mpr rfl, .here _⟩⟩

theorem clipPass_starts : ∀ l : List Interval,
    (clipPass l).map (·.start) = l.map (·.start)
  | [] => rfl
  | [_] => rfl
  | a :: b :: rest => by
    have ih := clipPass_starts (b :: rest)
    simp only [clipPass, List.map_cons] at *
    rw [ih]
    congr 1
    split <;> rfl

theorem clipPass_head_start (b : Interval) (rest : List Interval) :
    ∃ b' t, clipPass (b :: rest) = b' :: t ∧ b'.start = b.start := by
  cases rest with
  | nil => exact ⟨b, [], rfl, rfl⟩
  | cons c t =>
    refine ⟨_, _, rfl, ?_⟩
    split <;> rfl

/-- After one clipping pass, consecutive intervals never overlap. -/
theorem clipPass_chain' : ∀ l : List Interval,
    List.Chain' (fun a b => a.«end» ≤ b.start) (clipPass l)
  | [] => List.chain'_nil
  | [a] => List.chain'_singleton a
  | a :: b :: rest => by
    have ih := clipPass_chain' (b :: rest)
    obtain ⟨b', t, heq, hstart⟩ := clipPass_head_start b rest
    rw [show clipPass (a :: b :: rest) =
        (if a.«end» > b.start then { a with «end» := b.start } else a) ::
          clipPass (b :: rest) from rfl, heq]
    rw [heq] at ih
    refine List.chain'_cons.mpr ⟨?_, ih⟩
    rw [hstart]
    split
    · exact le_refl _
    · omega

/-- A clipping pass on an already non-overlapping list changes nothing. -/
theorem clipPass_of_chain' : ∀ l : List Interval,
    List.Chain' (fun a b => a.«end» ≤ b.start) l → clipPass l = l
  | [], _ => rfl
  | [_], _ => rfl
  | a :: b :: rest, h => by
    obtain ⟨hab, htail⟩ := List.chain'_cons.mp h
    simp only [clipPass]
    rw [if_neg (by omega), clipPass_of_chain' (b :: rest) htail]

theorem sortByStart_pairwise (l : List Interval) :
    List.Pairwise startLE (sortByStart l) :=
  List.sorted_insertionSort startLE l

theorem sortByStart_of_pairwise {l : List Interval}
    (h : List.Pairwise startLE l) : sortByStart l = l :=
  List.Sorted.insertionSort_eq h

theorem pairwise_clipPass {l : List Interval}
    (h : List.Pairwise startLE l) : List.Pairwise startLE (clipPass l) := by
  have h1 : (l.map (·.start)).Pairwise (· ≤ ·) := List.pairwise_map.mpr h
  have h2 : ((clipPass l).map (·.start)).Pairwise (· ≤ ·) := by
    rw [clipPass_starts]; exact h1
  have h3 : List.Pairwise (fun a b : Interval => a.start ≤ b.start)
      (clipPass l) := List.pairwise_map.mp h2
  exact h3

theorem overlapSum_shift (rest : List Interval) (s e m : Int)
    (h : ∀ i ∈ rest, m ≤ i.start) :
    overlapSum (max s m) e rest = overlapSum s e rest := by
  induction rest with
  | nil => rfl
  | cons a t ih =>
    have ha := h a (List.mem_cons_self a t)
    simp only [overlapSum, List.map_cons, List.sum_cons] at *
    rw [show ((t.map (overlapContrib (max s m) e)).sum =
        (t.map (overlapContrib s e)).sum) from
      ih (fun i hi => h i (List.mem_cons_of_mem _ hi))]
    congr 1
    simp only [overlapContrib]
    rw [max_assoc, max_eq_right ha]

/-- Summed overlap of `[s, e)` with a sorted, non-overlapping interval
list is bounded by the span's length. -/
theorem overlapSum_le : ∀ (l : List Interval) (s e : Int),
    List.Chain' (fun a b => a.«end» ≤ b.start) l →
    List.Pairwise startLE l →
    overlapSum s e l ≤ max 0 (e - s)
  | [], s, e, _, _ => by simp [overlapSum]
  | a :: rest, s, e, hchain, hpair => by
    have hrest : ∀ i ∈ rest, a.«end» ≤ i.start := by
      intro i hi
      cases rest with
      | nil => simp at hi
      | cons b t =>
        have hab : a.«end» ≤ b.start := (List.chain'_cons.mp hchain).1
        rcases List.mem_cons.mp hi with rfl | hit
        · exact hab
        · have hp := (List.pairwise_cons.mp
            (List.pairwise_cons.mp hpair).2).1 i hit
          exact le_trans hab hp
    have ih := overlapSum_le rest (max s a.«end») e hchain.tail
      (List.pairwise_cons.mp hpair).2
    rw [overlapSum_shift rest s e a.«end» hrest] at ih
    have key : overlapContrib s e a + max 0 (e - max s a.«end») ≤
        max 0 (e - s) := by
      simp only [overlapContrib, Int.max_def, Int.min_def]
      split_ifs <;> omega
    have hsum : overlapSum s e (a :: rest) =
        overlapContrib s e a + overlapSum s e rest := by
      simp [overlapSum]
    omega

/-- One `intervals_overlap` call returns at most the event's span. -/
theorem intervals_overlap_le (ev : HostEvent) (l : List Interval)
    (h : ev.start_time_ns ≤ ev.end_time_ns) :
    ev.intervals_overlap l ≤ ev.end_time_ns - ev.start_time_ns := by
  have h1 := overlapSum_le (clipPass (sortByStart l)) ev.start_time_ns
    ev.end_time_ns (clipPass_chain' _) (pairwise_clipPass (sortByStart_pairwise l))
  rw [max_eq_right (sub_nonneg.mpr h)] at h1
  exact h1

/-- **C9.** The overlap-clipping pass is idempotent: on an interval list
sorted by start whose consecutive intervals already satisfy
`interval.end <= next.start`, the pass changes no interval, running it
twice equals running it once, and the overlap sum for any event span is
unchanged. -/
theorem clipPass_idempotent (l : List Interval)
    (_hsorted : List.Pairwise startLE l)
    (hclipped : List.Chain' (fun a b => a.«end» ≤ b.start) l) :
    clipPass l = l ∧ clipPass (clipPass l) = clipPass l ∧
    ∀ s e : Int, overlapSum s e (clipPass l) = overlapSum s e l := by
  have h1 := clipPass_of_chain' l hclipped
  refine ⟨h1, ?_, ?_⟩
  · rw [h1]; exact h1
  · intro s e; rw [h1]

/-- Witness for C9 at the sorted clipped list `[[0,5), [5,9)]`. -/
theorem clipPass_idempotent_witness :
    List.Pairwise startLE [Interval.mk 0 5 0, Interval.mk 5 9 0] ∧
    List.Chain' (fun a b => a.«end» ≤ b.start)
      [Interval.mk 0 5 0, Interval.mk 5 9 0] ∧
    clipPass [Interval.mk 0 5 0, Interval.mk 5 9 0] =
      [Interval.mk 0 5 0, Interval.mk 5 9 0] ∧
    clipPass (clipPass [Interval.mk 0 5 0, Interval.mk 5 9 0]) =
      clipPass [Interval.mk 0 5 0, Interval.mk 5 9 0] ∧
    overlapSum 2 7 (clipPass [Interval.mk 0 5 0, Interval.mk 5 9 0]) =
      overlapSum 2 7 [Interval.mk 0 5 0, Interval.mk 5 9 0] :=
  ⟨by decide,
   List.chain'_cons.mpr ⟨by decide, List.chain'_singleton _⟩,
   (clipPass_idempotent _ (by decide)
     (List.chain'_cons.mpr ⟨by decide, List.chain'_singleton _⟩)).1,
   (clipPass_idempotent _ (by decide)
     (List.chain'_cons.mpr ⟨by decide, List.chain'_singleton _⟩)).2.1,
   (clipPass_idempotent _ (by decide)
     (List.chain'_cons.mpr ⟨by decide, List.chain'_singleton _⟩)).2.2 2 7⟩

/-- **C4 counterexample.** `intervals_overlap` does *not* leave the
caller's intervals unchanged: `sorted()` copies the list but shares the
`Interval` objects, and the clipping pass assigns `interval.end` in
place.  For the already sorted list `[[0,100), [50,150)]` (so the sorted
copy holds the caller's objects in order), the first interval's `end` is
50 after the call, not 100. -/
theorem intervals_overlap_mutates_argument :
    intervals_overlap_post [Interval.mk 0 100 0, Interval.mk 50 150 0] =
      [Interval.mk 0 50 0, Interval.mk 50 150 0] ∧
    intervals_overlap_post [Interval.mk 0 100 0, Interval.mk 50 150 0] ≠
      [Interval.mk 0 100 0, Interval.mk 50 150 0] := by
  constructor
  · decide
  · decide

/-- **C4 amended.** The clipping is visible to the caller, but it is
stable: a second call on the clipped list returns the same overlap sum
for every event and leaves the intervals unchanged, so repeated
`intervals_overlap` calls on the same list are result-equivalent. -/
theorem intervals_overlap_calls_stable (ev : HostEvent) (l : List Interval) :
    ev.intervals_overlap (intervals_overlap_post l) = ev.intervals_overlap l ∧
    intervals_overlap_post (intervals_overlap_post l) =
      intervals_overlap_post l := by
  have hsorted : List.Pairwise startLE (clipPass (sortByStart l)) :=
    pairwise_clipPass (sortByStart_pairwise l)
  have hfix : sortByStart (clipPass (sortByStart l)) = clipPass (sortByStart l) :=
    sortByStart_of_pairwise hsorted
  have hclip : clipPass (clipPass (sortByStart l)) = clipPass (sortByStart l) :=
    clipPass_of_chain' _ (clipPass_chain' _)
  constructor
  · simp only [HostEvent.intervals_overlap, intervals_overlap_post, hfix, hclip]
  · simp only [intervals_overlap_post, hfix, hclip]

/-- **C8.** After `compute_idle_time`, every host event's `idle_time_ns`
is at most its `duration_time_ns` (for well-formed events whose duration
is `end - start` with `start <= end`): the clipping pass leaves the
sorted idle intervals pairwise non-overlapping, so their intersections
with the event's span sum to at most the span. -/
theorem idle_time_le_duration (events : List HostEvent)
    (queue_depth_list : List Interval)
    (metrics : List (HostEvent × EventMetrics))
    (e : HostEvent) (m' : EventMetrics)
    (hmem : (e, m') ∈ compute_idle_time events queue_depth_list metrics)
    (hspan : e.start_time_ns ≤ e.end_time_ns)
    (hdur : m'.duration_time_ns = e.end_time_ns - e.start_time_ns) :
    m'.idle_time_ns ≤ m'.duration_time_ns := by
  simp only [compute_idle_time, List.mem_map] at hmem
  obtain ⟨p, _, heq⟩ := hmem
  have he : p.1 = e := congrArg Prod.fst heq
  have hm := congrArg Prod.snd heq
  dsimp only at hm
  subst he
  have hle := intervals_overlap_le p.1
    (idleIntervals events queue_depth_list) hspan
  calc m'.idle_time_ns
      = p.1.intervals_overlap (idleIntervals events queue_depth_list) := by
        rw [← hm]
    _ ≤ p.1.end_time_ns - p.1.start_time_ns := hle
    _ = m'.duration_time_ns := hdur.symm

/-- Witness for C8: one host event `[0, 40)` with duration 40 against a
queue-depth timeline with depths `[0, 5, 1, 0]`. -/
theorem idle_time_le_duration_witness :
    (HostEvent.mk 3 0 40 40 [],
      ({ duration_time_ns := 40, self_time_ns := 40,
         idle_time_ns := 0, queue_depth := 0 } : EventMetrics)) ∈
      compute_idle_time [HostEvent.mk 3 0 40 40 []]
        [Interval.mk 0 10 0, Interval.mk 10 20 5,
         Interval.mk 20 30 1, Interval.mk 30 40 0]
        [(HostEvent.mk 3 0 40 40 [],
          { duration_time_ns := 40, self_time_ns := 40,
            idle_time_ns := 0, queue_depth := 0 })] ∧
    (HostEvent.mk 3 0 40 40 []).start_time_ns ≤
      (HostEvent.mk 3 0 40 40 []).end_time_ns ∧
    ({ duration_time_ns := 40, self_time_ns := 40,
       idle_time_ns := 0, queue_depth := 0 } : EventMetrics).duration_time_ns =
      (HostEvent.mk 3 0 40 40 []).end_time_ns -
        (HostEvent.mk 3 0 40 40 []).start_time_ns ∧
    ({ duration_time_ns := 40, self_time_ns := 40,
       idle_time_ns := 0, queue_depth := 0 } : EventMetrics).idle_time_ns ≤
      ({ duration_time_ns := 40, self_time_ns := 40,
         idle_time_ns := 0, queue_depth := 0 } : EventMetrics).duration_time_ns :=
  ⟨by decide, by decide, by decide,
   idle_time_le_duration [HostEvent.mk 3 0 40 40 []]
     [Interval.mk 0 10 0, Interval.mk 10 20 5,
      Interval.mk 20 30 1, Interval.mk 30 40 0]
     [(HostEvent.mk 3 0 40 40 [],
       { duration_time_ns := 40, self_time_ns := 40,
         idle_time_ns := 0, queue_depth := 0 })]
     (HostEvent.mk 3 0 40 40 [])
     { duration_time_ns := 40, self_time_ns := 40,
       idle_time_ns := 0, queue_depth := 0 }
     (by decide) (by decide) (by decide)⟩

/-- **C5.** Whenever device queue-depth intervals exist (and there are
host events, which the claim presupposes by naming the first and last
host event), `compute_idle_time` adds exactly two boundary idle
intervals in front of the scan-derived ones: `[first host event start,
first queue-depth interval start)` and `[last queue-depth interval end,
last host event end)`. -/
theorem idle_boundary_intervals (events : List HostEvent)
    (queue_depth_list : List Interval)
    (hq : queue_depth_list ≠ []) (he : events ≠ []) :
    idleIntervals events queue_depth_list =
      Interval.mk (events.headD default).start_time_ns
          (queue_depth_list.headD default).start 0 ::
        Interval.mk (queue_depth_list.getLastD default).«end»
          (events.getLastD default).end_time_ns 0 ::
        scanIdleIntervals queue_depth_list false 0 := by
  cases queue_depth_list with
  | nil => exact absurd rfl hq
  | cons q qs =>
    cases events with
    | nil => exact absurd rfl he
    | cons ev evs => simp [idleIntervals]

/-- Witness for C5: one host event `[0, 40)`, queue-depth timeline with
depths `[0, 5, 1, 0]` over `[0, 40)`; the boundary intervals are the
(degenerate) `[0, 0)` and `[40, 40)`. -/
theorem idle_boundary_intervals_witness :
    ([Interval.mk 0 10 0, Interval.mk 10 20 5, Interval.mk 20 30 1,
        Interval.mk 30 40 0] : List Interval) ≠ [] ∧
    ([HostEvent.mk 3 0 40 40 []] : List HostEvent) ≠ [] ∧
    idleIntervals [HostEvent.mk 3 0 40 40 []]
        [Interval.mk 0 10 0, Interval.mk 10 20 5, Interval.mk 20 30 1,
         Interval.mk 30 40 0] =
      [Interval.mk 0 0 0, Interval.mk 40 40 0, Interval.mk 10 10 0] :=
  ⟨by decide, by decide,
   by rw [idle_boundary_intervals _ _ (by decide) (by decide)]; decide⟩

/-- **C2 (code bug).** The drain-pattern scan does *not* skip nested
windows: `i = j` before `break` does not change a Python `for` loop's
iteration variable, so after the window `[0, 3]` of the reversed depth
list `[0, 1, 5, 0]` is matched (emitting `[10, 30)`), the scan resumes
at index 1 and the nested window `[1, 3]` also matches (depth 5 exceeds
depth 1 by more than 3), emitting a second, overlapping decrease
interval `[10, 20)`. -/
theorem decrease_interval_nested_window_emitted :
    decreaseIntervals ([Interval.mk 0 10 0, Interval.mk 10 20 5,
        Interval.mk 20 30 1, Interval.mk 30 40 0].reverse) =
      [Interval.mk 10 30 0, Interval.mk 10 20 0] := by decide

theorem iofmGo_some {α : Type _} (seq : List α) (pred : α → Bool) :
    ∀ (is : List Nat) (k : Nat), iofmGo seq pred is = some k →
      k ∈ is ∧ ∃ x, seq[k]? = some x ∧ pred x = true := by
  intro is
  induction is with
  | nil => intro k h; simp [iofmGo] at h
  | cons i is ih =>
    intro k h
    cases hx : seq[i]? with
    | none => simp [iofmGo, hx] at h
    | some x =>
      simp only [iofmGo, hx] at h
      by_cases hp : pred x = true
      · rw [if_pos hp] at h
        obtain rfl := Option.some.inj h
        exact ⟨List.mem_cons_self i is, x, hx, hp⟩
      · rw [if_neg hp] at h
        obtain ⟨hmem, hrest⟩ := ih k h
        exact ⟨List.mem_cons_of_mem i hmem, hrest⟩

theorem index_of_first_match_some {α : Type _} (seq : List α)
    (pred : α → Bool) (start : Nat) (endIdx : Option Nat) (k : Nat)
    (h : index_of_first_match seq pred start endIdx = some k) :
    start ≤ k ∧ ∃ x, seq[k]? = some x ∧ pred x = true := by
  simp only [index_of_first_match] at h
  obtain ⟨hmem, hrest⟩ := iofmGo_some seq pred _ k h
  exact ⟨(List.mem_range'_1.mp hmem).1, hrest⟩

/-- Every defined entry of the kernel mapping points at a kernel that
shares the corresponding launch event's correlation id. -/
theorem buildKernelMappingGo_some (cuda_kernel_events : List KEvent) :
    ∀ (launches : List KEvent) (last : Nat) (i ki : Nat),
      (buildKernelMappingGo cuda_kernel_events launches last).getD i none =
        some ki →
      ∃ li, launches[i]? = some li ∧ ∃ ke, cuda_kernel_events[ki]? = some ke ∧
        ke.linked_correlation_id = li.linked_correlation_id := by
  intro launches
  induction launches with
  | nil => intro last i ki h; simp [buildKernelMappingGo] at h
  | cons l rest ih =>
    intro last i ki h
    simp only [buildKernelMappingGo] at h
    cases i with
    | zero =>
      simp only [List.getD_cons_zero] at h
      obtain ⟨_, x, hx, hp⟩ :=
        index_of_first_match_some cuda_kernel_events _ last none ki h
      refine ⟨l, by simp, x, hx, ?_⟩
      simpa using hp
    | succ i =>
      simp only [List.getD_cons_succ] at h
      obtain ⟨li, hli, hrest⟩ := ih _ i ki h
      exact ⟨li, by rw [List.getElem?_cons_succ]; exact hli, hrest⟩

/-- **C3 counterexample.** The mapping is *not* one-to-one: the search
cursor restarts at the previously matched index *inclusive*
(`start=last_mapped_kernel`, not `last_mapped_kernel + 1`), so two
distinct launch events sharing a correlation id are both matched to the
same kernel (index 0 here). -/
theorem kernel_mapping_reuses_kernel :
    buildKernelMapping
        [KEvent.mk "cudaLaunchKernel" 0 1 1, KEvent.mk "cudaLaunchKernel" 2 1 1]
        [KEvent.mk "kernelA" 10 5 1] = [some 0, some 0] ∧
    (buildKernelMapping
        [KEvent.mk "cudaLaunchKernel" 0 1 1, KEvent.mk "cudaLaunchKernel" 2 1 1]
        [KEvent.mk "kernelA" 10 5 1]).getD 0 none =
      (buildKernelMapping
        [KEvent.mk "cudaLaunchKernel" 0 1 1, KEvent.mk "cudaLaunchKernel" 2 1 1]
        [KEvent.mk "kernelA" 10 5 1]).getD 1 none := by decide

/-- **C3 amended.** Each launch is matched to the first kernel at index
no less than the previous matched index (inclusive) sharing its
correlation id — so a matched kernel always carries the launch's
correlation id, and when the launch events have pairwise distinct
correlation ids the mapping is one-to-one (a kernel matched to an
earlier launch is never re-used). -/
theorem kernel_mapping_injective_of_distinct_ids
    (cuda_launch_events cuda_kernel_events : List KEvent)
    (hdistinct : List.Pairwise
      (fun a b => a.linked_correlation_id ≠ b.linked_correlation_id)
      cuda_launch_events)
    (i j ki kj : Nat) (hij : i ≠ j)
    (hi : (buildKernelMapping cuda_launch_events cuda_kernel_events).getD
        i none = some ki)
    (hj : (buildKernelMapping cuda_launch_events cuda_kernel_events).getD
        j none = some kj) :
    ki ≠ kj ∧
    ∃ li, cuda_launch_events[i]? = some li ∧
      ∃ ke, cuda_kernel_events[ki]? = some ke ∧
        ke.linked_correlation_id = li.linked_correlation_id := by
  obtain ⟨li, hli, kei, hkei, hci⟩ :=
    buildKernelMappingGo_some cuda_kernel_events cuda_launch_events 0 i ki hi
  obtain ⟨lj, hlj, kej, hkej, hcj⟩ :=
    buildKernelMappingGo_some cuda_kernel_events cuda_launch_events 0 j kj hj
  refine ⟨?_, li, hli, kei, hkei, hci⟩
  intro hkeq
  subst hkeq
  have hke : kei = kej := by
    rw [hkei] at hkej
    exact Option.some.inj hkej
  have hcorr : li.linked_correlation_id = lj.linked_correlation_id := by
    rw [← hci, hke, hcj]
  obtain ⟨hilen, hie⟩ := List.getElem?_eq_some.mp hli
  obtain ⟨hjlen, hje⟩ := List.getElem?_eq_some.mp hlj
  have hpair := List.pairwise_iff_getElem.mp hdistinct
  rcases Nat.lt_or_ge i j with hlt | hge
  · exact hpair i j hilen hjlen hlt (hie ▸ hje ▸ hcorr)
  · have hlt : j < i := Nat.lt_of_le_of_ne hge (Ne.symm hij)
    exact hpair j i hjlen hilen hlt (hje ▸ hie ▸ hcorr.symm)

/-- Witness for C3 amended: launches with correlation ids 1 and 2,
kernels with ids 1 and 2, mapped to distinct indices 0 and 1. -/
theorem kernel_mapping_injective_witness :
    List.Pairwise
      (fun a b => a.linked_correlation_id ≠ b.linked_correlation_id)
      [KEvent.mk "cudaLaunchKernel" 0 1 1,
       KEvent.mk "cudaLaunchKernel" 2 1 2] ∧
    (0 : Nat) ≠ 1 ∧
    (buildKernelMapping
        [KEvent.mk "cudaLaunchKernel" 0 1 1, KEvent.mk "cudaLaunchKernel" 2 1 2]
        [KEvent.mk "kernelA" 10 5 1, KEvent.mk "kernelB" 20 5 2]).getD
      0 none = some 0 ∧
    (buildKernelMapping
        [KEvent.mk "cudaLaunchKernel" 0 1 1, KEvent.mk "cudaLaunchKernel" 2 1 2]
        [KEvent.mk "kernelA" 10 5 1, KEvent.mk "kernelB" 20 5 2]).getD
      1 none = some 1 ∧
    ((0 : Nat) ≠ 1 ∧
      ∃ li, ([KEvent.mk "cudaLaunchKernel" 0 1 1,
          KEvent.mk "cudaLaunchKernel" 2 1 2] : List KEvent)[0]? = some li ∧
        ∃ ke, ([KEvent.mk "kernelA" 10 5 1,
            KEvent.mk "kernelB" 20 5 2] : List KEvent)[0]? = some ke ∧
          ke.linked_correlation_id = li.linked_correlation_id) :=
  ⟨by decide, by decide, by decide, by decide,
   kernel_mapping_injective_of_distinct_ids
     [KEvent.mk "cudaLaunchKernel" 0 1 1, KEvent.mk "cudaLaunchKernel" 2 1 2]
     [KEvent.mk "kernelA" 10 5 1, KEvent.mk "kernelB" 20 5 2]
     (by decide) 0 1 0 1 (by decide) (by decide) (by decide)⟩

/-- **C7 counterexample.** With `length = 0` and a *nonempty* survivor
set, `get_optimizable_events` still produces the "No events to
optimize" indicator: the emptiness test `len(event_list) == 0` runs on
the list *after* truncation, not on the pre-truncation survivor set.
One host event `[10, 30)` survives the drain-interval filter (overlap
10 ≠ 0), yet the indicator Bool is `true`.  (`hsort := id`: the
float-score reordering is immaterial both because the survivor list is
a singleton and because `l[:0]` empties any list.) -/
theorem get_optimizable_events_indicator_despite_survivors :
    ([HostEvent.mk 3 10 30 20 []].filter (fun event =>
        event.intervals_overlap (decreaseIntervals
          ([Interval.mk 0 10 0, Interval.mk 10 20 5, Interval.mk 20 30 1,
            Interval.mk 30 40 0].reverse)) != 0)) =
      [HostEvent.mk 3 10 30 20 []] ∧
    get_optimizable_events
        [Interval.mk 0 10 0, Interval.mk 10 20 5, Interval.mk 20 30 1,
         Interval.mk 30 40 0]
        [HostEvent.mk 3 10 30 20 []] id 0 = (true, []) := by decide

/-- **C7 amended.** `get_optimizable_events` with `length = 0` returns
an empty list without error, but the "No events to optimize" indicator
is produced whenever the *post-truncation* list is empty — in
particular always at `length = 0`, even when the pre-truncation
survivor set is nonempty. -/
theorem get_optimizable_events_length_zero
    (self_queue_depth_list : List Interval) (metric_keys : List HostEvent)
    (hsort : List HostEvent → List HostEvent) :
    rank_events self_queue_depth_list metric_keys hsort 0 = [] ∧
    get_optimizable_events self_queue_depth_list metric_keys hsort 0 =
      (true, []) := by
  have h1 : rank_events self_queue_depth_list metric_keys hsort 0 = [] := by
    simp only [rank_events]
    split
    · exact List.isEmpty_iff.mp (by assumption)
    · simp [pySliceTo]
  exact ⟨h1, by simp [get_optimizable_events, h1]⟩

/-- **C10.** For a negative `length` argument `n`, when the surviving
event set has more than `|n|` events, `rank_events` returns the ranked
survivors with the last `|n|` entries removed (Python `event_list[:n]`
slice semantics) — a non-empty list, not an error — and
`get_optimizable_events` then reports those events as optimizable
(indicator Bool `false`). -/
theorem rank_events_negative_length
    (self_queue_depth_list : List Interval) (metric_keys : List HostEvent)
    (hsort : List HostEvent → List HostEvent) (n : Int)
    (S : List HostEvent)
    (hS : metric_keys.filter (fun event =>
        event.intervals_overlap (decreaseIntervals
          self_queue_depth_list.reverse) != 0) = S)
    (hn : n < 0)
    (hlen : (hsort S).length = S.length)
    (hmore : n.natAbs < S.length) :
    rank_events self_queue_depth_list metric_keys hsort n =
      (hsort S).take (S.length - n.natAbs) ∧
    rank_events self_queue_depth_list metric_keys hsort n ≠ [] ∧
    get_optimizable_events self_queue_depth_list metric_keys hsort n =
      (false, rank_events self_queue_depth_list metric_keys hsort n) := by
  have hSne : S.isEmpty = false := by
    cases S with
    | nil => simp at hmore
    | cons a t => rfl
  have h1 : rank_events self_queue_depth_list metric_keys hsort n =
      (hsort S).take (S.length - n.natAbs) := by
    simp only [rank_events, hS, hSne, Bool.false_eq_true, if_false, pySliceTo,
      if_pos hn, hlen]
    congr 1
    omega
  have htake : ((hsort S).take (S.length - n.natAbs)).length =
      S.length - n.natAbs := by
    rw [List.length_take, hlen]
    omega
  have h2 : rank_events self_queue_depth_list metric_keys hsort n ≠ [] := by
    rw [h1]
    apply List.ne_nil_of_length_pos
    rw [htake]
    omega
  refine ⟨h1, h2, ?_⟩
  simp only [get_optimizable_events]
  rw [if_neg]
  simp only [List.isEmpty_iff]
  exact h2

/-- Witness for C10: two surviving events, `n = -1` drops the last one
and returns a singleton, which `get_optimizable_events` reports. -/
theorem rank_events_negative_length_witness :
    ([HostEvent.mk 3 10 30 20 [], HostEvent.mk 4 12 18 6 []].filter
        (fun event => event.intervals_overlap (decreaseIntervals
          ([Interval.mk 0 10 0, Interval.mk 10 20 5, Interval.mk 20 30 1,
            Interval.mk 30 40 0].reverse)) != 0)) =
      [HostEvent.mk 3 10 30 20 [], HostEvent.mk 4 12 18 6 []] ∧
    (-1 : Int) < 0 ∧
    (id [HostEvent.mk 3 10 30 20 [], HostEvent.mk 4 12 18 6 []]).length =
      ([HostEvent.mk 3 10 30 20 [], HostEvent.mk 4 12 18 6 []] :
        List HostEvent).length ∧
    (-1 : Int).natAbs <
      ([HostEvent.mk 3 10 30 20 [], HostEvent.mk 4 12 18 6 []] :
        List HostEvent).length ∧
    (rank_events
        [Interval.mk 0 10 0, Interval.mk 10 20 5, Interval.mk 20 30 1,
         Interval.mk 30 40 0]
        [HostEvent.mk 3 10 30 20 [], HostEvent.mk 4 12 18 6 []] id (-1) =
      (id [HostEvent.mk 3 10 30 20 [], HostEvent.mk 4 12 18 6 []]).take
        (([HostEvent.mk 3 10 30 20 [], HostEvent.mk 4 12 18 6 []] :
          List HostEvent).length - (-1 : Int).natAbs) ∧
    rank_events
        [Interval.mk 0 10 0, Interval.mk 10 20 5, Interval.mk 20 30 1,
         Interval.mk 30 40 0]
        [HostEvent.mk 3 10 30 20 [], HostEvent.mk 4 12 18 6 []] id (-1) ≠ [] ∧
    get_optimizable_events
        [Interval.mk 0 10 0, Interval.mk 10 20 5, Interval.mk 20 30 1,
         Interval.mk 30 40 0]
        [HostEvent.mk 3 10 30 20 [], HostEvent.mk 4 12 18 6 []] id (-1) =
      (false, rank_events
        [Interval.mk 0 10 0, Interval.mk 10 20 5, Interval.mk 20 30 1,
         Interval.mk 30 40 0]
        [HostEvent.mk 3 10 30 20 [], HostEvent.mk 4 12 18 6 []] id (-1))) :=
  ⟨by decide, by decide, by decide, by decide,
   rank_events_negative_length
     [Interval.mk 0 10 0, Interval.mk 10 20 5, Interval.mk 20 30 1,
      Interval.mk 30 40 0]
     [HostEvent.mk 3 10 30 20 [], HostEvent.mk 4 12 18 6 []] id (-1)
     [HostEvent.mk 3 10 30 20 [], HostEvent.mk 4 12 18 6 []]
     (by decide) (by decide) (by decide) (by decide)⟩

end TorchProfiler
